import Mathlib

/-!
Verification of the text-patching utility `fix_calendar_permissions.py`.

The script performs a regex-based find-and-insert on an Xcode project file:
it matches every non-overlapping occurrence of
`INFOPLIST_KEY_UISupportedInterfaceOrientations_iPhone = "<nonempty>";`
(left-to-right, as Python's `re.sub` does), inserts a fixed two-line block
after each occurrence, counts the replacements, and wraps this in a small
file-handling shell (backup, conditional rewrite, exit codes).

Text is modelled as `List Char`; the filesystem as a partial map from path
strings to file contents; the scan of `re.sub` as a character-by-character
left-to-right scan that, at each position, attempts to match the pattern
and on success emits the replacement and resumes after the match.
-/

set_option maxRecDepth 100000
set_option linter.unusedVariables false

/-- The fixed literal head of the regex pattern
`(INFOPLIST_KEY_UISupportedInterfaceOrientations_iPhone = "[^"]+";)`,
up to and including the opening quote. -/
def markerLit : List Char :=
  "INFOPLIST_KEY_UISupportedInterfaceOrientations_iPhone = \"".data

/-- Character class `[^"]` of the pattern. -/
def notQuote : Char → Bool := fun c => c != '"'

/-- The string bound to `calendar_usage_desc` in the script. -/
def calendar_usage_desc : List Char :=
  "This app needs access to your calendar to import events for tracking and visualization.".data

/-- The string bound to `calendar_full_access_desc` in the script. -/
def calendar_full_access_desc : List Char :=
  "This app needs full access to your calendar to import events for tracking and visualization.".data

/-- The f-string bound to `calendar_keys` in the script: two statement lines,
each indented by four tab characters, separated by a newline. -/
def calendar_keys : List Char :=
  "\t\t\t\tINFOPLIST_KEY_NSCalendarsUsageDescription = \"".data ++
    calendar_usage_desc ++ "\";\n".data ++
    "\t\t\t\tINFOPLIST_KEY_NSCalendarsFullAccessUsageDescription = \"".data ++
    calendar_full_access_desc ++ "\";".data

/-- Attempt to match the regex
`INFOPLIST_KEY_UISupportedInterfaceOrientations_iPhone = "[^"]+";`
at the head of `s`.  On success, return the matched text (group 1, which is
the whole match) and the remainder of `s` after the match.  Since `[^"]+`
cannot cross a quote, the regex is deterministic: it requires the literal
head, then a maximal nonempty run of non-quote characters, then `";`. -/
def matchMarker (s : List Char) : Option (List Char × List Char) :=
  if markerLit.isPrefixOf s then
    let rest := s.drop markerLit.length
    let valueRun := rest.takeWhile notQuote
    let rest2 := rest.dropWhile notQuote
    if valueRun = [] then none
    else if rest2.take 2 = ['"', ';'] then
      some (markerLit ++ valueRun ++ ['"', ';'], rest2.drop 2)
    else none
  else none

/-- Fuel-indexed left-to-right scan of `re.sub(pattern, replace_func, content)`:
at each position try `matchMarker`; on success emit the match followed by
`'\n'` and `calendar_keys` (the value returned by `replace_func`), resume
after the match and count the replacement; otherwise copy one character. -/
def subAllF : Nat → List Char → List Char × Nat
  | 0, _ => ([], 0)
  | _ + 1, [] => ([], 0)
  | f + 1, c :: cs =>
    match matchMarker (c :: cs) with
    | some (m, r) =>
      let t := subAllF f r
      (m ++ ('\n' :: calendar_keys) ++ t.1, t.2 + 1)
    | none =>
      let t := subAllF f cs
      (c :: t.1, t.2)

/-- The modified content and replacement count produced by
`re.sub(pattern, replace_func, content)` together with the `replacements`
counter of the script. -/
def subAll (s : List Char) : List Char × Nat := subAllF s.length s

/-- Fuel-indexed count of non-overlapping left-to-right occurrences of the
pattern, independent of the substitution. -/
def countF : Nat → List Char → Nat
  | 0, _ => 0
  | _ + 1, [] => 0
  | f + 1, c :: cs =>
    match matchMarker (c :: cs) with
    | some (_, r) => countF f r + 1
    | none => countF f cs

/-- Number of non-overlapping occurrences of the pattern in `s`,
in left-to-right scan order. -/
def countMarkers (s : List Char) : Nat := countF s.length s

/-- Shape of a matched anchor: the literal head, a nonempty run of
non-quote characters, then `";`. -/
def IsMarker (m : List Char) : Prop :=
  ∃ u, u ≠ [] ∧ '"' ∉ u ∧ m = markerLit ++ u ++ ['"', ';']

/- ### Decomposition of an input into gaps and matched anchors -/

/-- Reassemble an input from alternating gap/anchor pairs and a final gap. -/
def assemble (ps : List (List Char × List Char)) (g : List Char) : List Char :=
  ps.foldr (fun p acc => p.1 ++ (p.2 ++ acc)) g

/-- Reassembly after one application of the patch: every anchor is followed
by a newline and `calendar_keys`. -/
def assemblePatched (ps : List (List Char × List Char)) (g : List Char) : List Char :=
  ps.foldr (fun p acc => p.1 ++ (p.2 ++ (('\n' :: calendar_keys) ++ acc))) g

/-- Reassembly after two applications of the patch: every anchor is followed
by two stacked copies of the inserted block. -/
def assembleTwice (ps : List (List Char × List Char)) (g : List Char) : List Char :=
  ps.foldr
    (fun p acc => p.1 ++ (p.2 ++ (('\n' :: calendar_keys) ++ (('\n' :: calendar_keys) ++ acc)))) g

/-- Boolean check that no suffix of `l` can start a pattern match, whatever
text follows `l`. -/
def noMarkerInside (l : List Char) : Bool :=
  (List.range l.length).all (fun j =>
    if markerLit.length ≤ l.length - j then !(markerLit.isPrefixOf (l.drop j))
    else !((l.drop j).isPrefixOf markerLit))

/- ### Filesystem shell: backup, conditional rewrite, exit codes -/

/-- A filesystem is a partial map from paths to text contents; `none` means
the path does not exist. -/
abbrev FS : Type := String → Option (List Char)

/-- Overwrite (or create) one file. -/
def FS.set (fs : FS) (p : String) (v : List Char) : FS :=
  fun q => if q = p then some v else fs q

/-- A filesystem with no files. -/
def emptyFS : FS := fun _ => none

/-- Apply a sequence of file writes in order. -/
def applyWrites (fs : FS) (ws : List (String × List Char)) : FS :=
  ws.foldl (fun a w => FS.set a w.1 w.2) fs

/-- The function `add_calendar_permissions(project_file_path)` of the script:
copy the file to `path + ".backup"`, read it, run the substitution; if the
count is zero report failure without rewriting, otherwise write the modified
text back and report success.  The result carries the final filesystem, the
returned boolean, and the ordered list of file writes performed; `none`
models the unhandled exception when the file cannot be read. -/
def add_calendar_permissions (path : String) (fs : FS) :
    Option (FS × Bool × List (String × List Char)) :=
  match fs path with
  | none => none
  | some content =>
    let r := subAll content
    if r.2 = 0 then
      let ws := [(path ++ ".backup", content)]
      some (applyWrites fs ws, false, ws)
    else
      let ws := [(path ++ ".backup", content), (path, r.1)]
      some (applyWrites fs ws, true, ws)

/-- The fixed relative path used by `main`. -/
def projectPath : String := "trendy.xcodeproj/project.pbxproj"

/-- Observable outcome of one program run: final filesystem, process exit
code, and the ordered file writes. -/
structure RunResult where
  fs : FS
  exitCode : Nat
  writes : List (String × List Char)

/-- The `main()` function of the script: if the project file does not exist
return exit code 1 touching nothing; otherwise run
`add_calendar_permissions` and map its boolean to exit code 0 or 1. -/
def mainRun (fs : FS) : RunResult :=
  if (fs projectPath).isSome then
    match add_calendar_permissions projectPath fs with
    | some (fs', true, ws) => ⟨fs', 0, ws⟩
    | some (fs', false, ws) => ⟨fs', 1, ws⟩
    | none => ⟨fs, 1, []⟩
  else ⟨fs, 1, []⟩


/- ### Concrete inputs for witnesses and counterexamples -/

/-- Four tab characters, the fixed indentation of the inserted lines. -/
def tab4 : List Char := ['\t', '\t', '\t', '\t']

/-- Leading run of tabs and spaces of a line. -/
def indentOf (l : List Char) : List Char :=
  l.takeWhile (fun c => c == '\t' || c == ' ')

/-- First inserted assignment statement, without indentation. -/
def usageLine : List Char :=
  "INFOPLIST_KEY_NSCalendarsUsageDescription = \"".data ++
    calendar_usage_desc ++ "\";".data

/-- Second inserted assignment statement, without indentation. -/
def fullAccessLine : List Char :=
  "INFOPLIST_KEY_NSCalendarsFullAccessUsageDescription = \"".data ++
    calendar_full_access_desc ++ "\";".data

/-- Text of the second line of the inserted block. -/
def secondKeyLine : List Char :=
  (calendar_keys.dropWhile (fun c => c != '\n')).drop 1

/-- A concrete anchor statement with the portrait orientation value. -/
def exC8anchor : List Char :=
  "INFOPLIST_KEY_UISupportedInterfaceOrientations_iPhone = \"UIInterfaceOrientationPortrait\";".data

/-- A one-block input consisting of the anchor statement and a newline. -/
def exC8 : List Char := exC8anchor ++ ['\n']

/-- A filesystem holding `exC8` at the project path. -/
def fsC8 : FS := FS.set emptyFS projectPath exC8

/-- An input whose anchor statement has an empty quoted value. -/
def exC10 : List Char :=
  "\t\t\t\tINFOPLIST_KEY_UISupportedInterfaceOrientations_iPhone = \"\";\n".data

/-- A content with no occurrence of the pattern. -/
def noMarkerText : List Char := "nothing to see here".data

/-- A filesystem holding `noMarkerText` at the project path. -/
def fsC2 : FS := FS.set emptyFS projectPath noMarkerText

/- ### Small list helpers -/

theorem take_append_le {α : Type} (n : Nat) (u w : List α) (h : n ≤ u.length) :
    (u ++ w).take n = u.take n := by
  induction u generalizing n with
  | nil =>
    have hn : n = 0 := Nat.le_zero.mp (by simpa using h)
    subst hn
    simp
  | cons a u ih =>
    cases n with
    | zero => simp
    | succ n =>
      simp only [List.cons_append, List.take_succ_cons]
      rw [ih n (by simpa using h)]

theorem drop_append_le {α : Type} (n : Nat) (u w : List α) (h : n ≤ u.length) :
    (u ++ w).drop n = u.drop n ++ w := by
  induction u generalizing n with
  | nil =>
    have hn : n = 0 := Nat.le_zero.mp (by simpa using h)
    subst hn
    simp
  | cons a u ih =>
    cases n with
    | zero => simp
    | succ n =>
      simp only [List.cons_append, List.drop_succ_cons]
      exact ih n (by simpa using h)

theorem takeWhile_append_of_stop {p : Char → Bool} (u w : List Char)
    (h : u.dropWhile p ≠ []) :
    (u ++ w).takeWhile p = u.takeWhile p := by
  induction u with
  | nil => simp at h
  | cons a u ih =>
    by_cases hpa : p a
    · simp only [List.cons_append, List.takeWhile_cons, hpa, if_true]
      rw [ih (by simpa [List.dropWhile_cons, hpa] using h)]
    · simp [List.takeWhile_cons, hpa]

theorem dropWhile_append_of_stop {p : Char → Bool} (u w : List Char)
    (h : u.dropWhile p ≠ []) :
    (u ++ w).dropWhile p = u.dropWhile p ++ w := by
  induction u with
  | nil => simp at h
  | cons a u ih =>
    by_cases hpa : p a
    · simp only [List.cons_append, List.dropWhile_cons, hpa, if_true]
      rw [ih (by simpa [List.dropWhile_cons, hpa] using h)]
    · simp [List.dropWhile_cons, hpa]

theorem isPrefixOf_append_le (pl u w : List Char) (h : pl.length ≤ u.length) :
    pl.isPrefixOf (u ++ w) = pl.isPrefixOf u := by
  induction pl generalizing u with
  | nil => simp [List.isPrefixOf]
  | cons a pl ih =>
    cases u with
    | nil => simp at h
    | cons b u =>
      simp only [List.cons_append, List.isPrefixOf, List.append_eq]
      rw [ih u (by simpa using h)]

theorem isPrefixOf_append_self (pl t : List Char) :
    pl.isPrefixOf (pl ++ t) = true := by
  induction pl with
  | nil => simp [List.isPrefixOf]
  | cons a pl ih => simp [List.isPrefixOf, ih]

theorem eq_append_of_isPrefixOf {pl s : List Char} (h : pl.isPrefixOf s = true) :
    s = pl ++ s.drop pl.length := by
  induction pl generalizing s with
  | nil => simp
  | cons a pl ih =>
    cases s with
    | nil => simp [List.isPrefixOf] at h
    | cons b s =>
      simp only [List.isPrefixOf, Bool.and_eq_true, beq_iff_eq] at h
      obtain ⟨rfl, h2⟩ := h
      simpa using ih h2

theorem isPrefixOf_of_isPrefixOf_append {pl u r : List Char}
    (h : pl.isPrefixOf (u ++ r) = true) (hlen : u.length ≤ pl.length) :
    u.isPrefixOf pl = true := by
  induction u generalizing pl with
  | nil => simp [List.isPrefixOf]
  | cons a u ih =>
    cases pl with
    | nil => simp at hlen
    | cons b pl =>
      simp only [List.cons_append, List.isPrefixOf, Bool.and_eq_true, beq_iff_eq] at h ⊢
      obtain ⟨rfl, h2⟩ := h
      exact ⟨rfl, ih h2 (by simpa using hlen)⟩

/- ### Fuel irrelevance and unfolding equations -/

theorem matchMarker_rest_lt {s m r : List Char} (h : matchMarker s = some (m, r)) :
    r.length < s.length ∧ s = m ++ r ∧ IsMarker m := by
  unfold matchMarker at h
  by_cases hp : markerLit.isPrefixOf s
  · simp only [hp, if_true] at h
    set rest := s.drop markerLit.length with hrest
    set valueRun := rest.takeWhile notQuote with hrun
    set rest2 := rest.dropWhile notQuote with hrest2
    by_cases hv : valueRun = []
    · simp [hv] at h
    · by_cases ht : rest2.take 2 = ['"', ';']
      · simp only [hv, ht, if_false, if_true, Option.some.injEq, Prod.mk.injEq] at h
        obtain ⟨hm, hr⟩ := h
        have hsplit : s = markerLit ++ rest := eq_append_of_isPrefixOf hp
        have hrw : rest = valueRun ++ rest2 := by
          rw [hrun, hrest2, List.takeWhile_append_dropWhile]
        have hr2 : rest2 = ['"', ';'] ++ rest2.drop 2 := by
          conv_lhs => rw [← List.take_append_drop 2 rest2, ht]
        have hseq : s = m ++ r := by
          rw [hsplit, hrw, ← hm, ← hr]
          conv_lhs => rw [hr2]
          simp [List.append_assoc]
        have hmark : IsMarker m := by
          refine ⟨valueRun, hv, ?_, by rw [← hm]⟩
          intro hmem
          have := List.mem_takeWhile_imp (by rw [← hrun]; exact hmem)
          simp [notQuote] at this
        refine ⟨?_, hseq, hmark⟩
        have hmlen : 0 < m.length := by
          rw [← hm]
          simp [markerLit]
        rw [hseq]
        simp only [List.length_append]
        omega
      · simp [hv, ht] at h
  · simp [hp] at h

theorem subAllF_fuel : ∀ f g s, s.length ≤ f → s.length ≤ g →
    subAllF f s = subAllF g s := by
  intro f
  induction f with
  | zero =>
    intro g s hf _
    have : s = [] := List.eq_nil_of_length_eq_zero (Nat.le_zero.mp hf)
    subst this
    cases g <;> rfl
  | succ f ih =>
    intro g s hf hg
    cases s with
    | nil => cases g <;> rfl
    | cons c cs =>
      cases g with
      | zero => simp at hg
      | succ g =>
        cases hmm : matchMarker (c :: cs) with
        | some p =>
          obtain ⟨m, r⟩ := p
          have hlt := (matchMarker_rest_lt hmm).1
          simp only [List.length_cons] at hf hg hlt
          simp only [subAllF, hmm]
          rw [ih g r (by omega) (by omega)]
        | none =>
          simp only [List.length_cons] at hf hg
          simp only [subAllF, hmm]
          rw [ih g cs (by omega) (by omega)]

theorem countF_fuel : ∀ f g s, s.length ≤ f → s.length ≤ g →
    countF f s = countF g s := by
  intro f
  induction f with
  | zero =>
    intro g s hf _
    have : s = [] := List.eq_nil_of_length_eq_zero (Nat.le_zero.mp hf)
    subst this
    cases g <;> rfl
  | succ f ih =>
    intro g s hf hg
    cases s with
    | nil => cases g <;> rfl
    | cons c cs =>
      cases g with
      | zero => simp at hg
      | succ g =>
        cases hmm : matchMarker (c :: cs) with
        | some p =>
          obtain ⟨m, r⟩ := p
          have hlt := (matchMarker_rest_lt hmm).1
          simp only [List.length_cons] at hf hg hlt
          simp only [countF, hmm]
          rw [ih g r (by omega) (by omega)]
        | none =>
          simp only [List.length_cons] at hf hg
          simp only [countF, hmm]
          rw [ih g cs (by omega) (by omega)]

theorem subAll_nil : subAll [] = ([], 0) := rfl

theorem subAll_cons_some {c : Char} {cs m r : List Char}
    (h : matchMarker (c :: cs) = some (m, r)) :
    subAll (c :: cs) = (m ++ ('\n' :: calendar_keys) ++ (subAll r).1, (subAll r).2 + 1) := by
  have hlt := (matchMarker_rest_lt h).1
  simp only [List.length_cons] at hlt
  unfold subAll
  simp only [List.length_cons, subAllF, h]
  rw [subAllF_fuel cs.length r.length r (by omega) le_rfl]

theorem subAll_cons_none {c : Char} {cs : List Char}
    (h : matchMarker (c :: cs) = none) :
    subAll (c :: cs) = (c :: (subAll cs).1, (subAll cs).2) := by
  unfold subAll
  simp only [List.length_cons, subAllF, h]

theorem countMarkers_nil : countMarkers [] = 0 := rfl

theorem countMarkers_cons_some {c : Char} {cs m r : List Char}
    (h : matchMarker (c :: cs) = some (m, r)) :
    countMarkers (c :: cs) = countMarkers r + 1 := by
  have hlt := (matchMarker_rest_lt h).1
  simp only [List.length_cons] at hlt
  unfold countMarkers
  simp only [List.length_cons, countF, h]
  rw [countF_fuel cs.length r.length r (by omega) le_rfl]

theorem countMarkers_cons_none {c : Char} {cs : List Char}
    (h : matchMarker (c :: cs) = none) :
    countMarkers (c :: cs) = countMarkers cs := by
  unfold countMarkers
  simp only [List.length_cons, countF, h]

theorem subAll_snd_eq_countMarkers (s : List Char) :
    (subAll s).2 = countMarkers s := by
  have key : ∀ n s, s.length ≤ n → (subAll s).2 = countMarkers s := by
    intro n
    induction n with
    | zero =>
      intro s hs
      have : s = [] := List.eq_nil_of_length_eq_zero (Nat.le_zero.mp hs)
      subst this
      rfl
    | succ n ih =>
      intro s hs
      cases s with
      | nil => rfl
      | cons c cs =>
        cases hmm : matchMarker (c :: cs) with
        | some p =>
          obtain ⟨m, r⟩ := p
          have hlt := (matchMarker_rest_lt hmm).1
          simp only [List.length_cons] at hs hlt
          rw [subAll_cons_some hmm, countMarkers_cons_some hmm, ih r (by omega)]
        | none =>
          simp only [List.length_cons] at hs
          rw [subAll_cons_none hmm, countMarkers_cons_none hmm, ih cs (by omega)]
  exact key s.length s le_rfl

/- ### Locality of the matcher -/

theorem dropWhile_quote_tail (z : List Char) :
    2 ≤ ((z ++ ['"', ';']).dropWhile notQuote).length := by
  induction z with
  | nil => decide
  | cons a z ih =>
    by_cases hpa : notQuote a
    · simpa [List.dropWhile_cons, hpa] using ih
    · simp only [List.cons_append, List.dropWhile_cons, hpa, if_false, Bool.false_eq_true]
      simp only [List.length_cons, List.length_append]
      omega

theorem matchMarker_append (v x : List Char)
    (hlen : markerLit.length ≤ v.length)
    (hq : 2 ≤ ((v.drop markerLit.length).dropWhile notQuote).length) :
    matchMarker (v ++ x) = (matchMarker v).map (fun p => (p.1, p.2 ++ x)) := by
  have h1 : markerLit.isPrefixOf (v ++ x) = markerLit.isPrefixOf v :=
    isPrefixOf_append_le _ _ _ hlen
  have h2 : (v ++ x).drop markerLit.length = v.drop markerLit.length ++ x :=
    drop_append_le _ _ _ hlen
  have hDW : (v.drop markerLit.length).dropWhile notQuote ≠ [] := by
    intro hnil
    rw [hnil] at hq
    simp at hq
  have h3 : (v.drop markerLit.length ++ x).takeWhile notQuote
      = (v.drop markerLit.length).takeWhile notQuote :=
    takeWhile_append_of_stop _ _ hDW
  have h4 : (v.drop markerLit.length ++ x).dropWhile notQuote
      = (v.drop markerLit.length).dropWhile notQuote ++ x :=
    dropWhile_append_of_stop _ _ hDW
  have h5 : ((v.drop markerLit.length).dropWhile notQuote ++ x).take 2
      = ((v.drop markerLit.length).dropWhile notQuote).take 2 :=
    take_append_le _ _ _ hq
  have h6 : ((v.drop markerLit.length).dropWhile notQuote ++ x).drop 2
      = ((v.drop markerLit.length).dropWhile notQuote).drop 2 ++ x :=
    drop_append_le _ _ _ hq
  simp only [matchMarker, h1, h2, h3, h4, h5, h6]
  by_cases hp : markerLit.isPrefixOf v
  · simp only [hp, if_true]
    by_cases hrun : (v.drop markerLit.length).takeWhile notQuote = []
    · simp [hrun]
    · by_cases htk : ((v.drop markerLit.length).dropWhile notQuote).take 2 = ['"', ';']
      · simp [hrun, htk]
      · simp [hrun, htk]
  · simp [hp]

theorem matchMarker_of_isMarker {m : List Char} (hm : IsMarker m) (x : List Char) :
    matchMarker (m ++ x) = some (m, x) := by
  obtain ⟨u, hu, hq, hmeq⟩ := hm
  subst hmeq
  have hall : ∀ c ∈ u, notQuote c = true := by
    intro c hc
    simp only [notQuote, bne_iff_ne, ne_eq]
    intro hcq
    exact hq (hcq ▸ hc)
  have hassoc : markerLit ++ u ++ ['"', ';'] ++ x = markerLit ++ (u ++ (['"', ';'] ++ x)) := by
    simp [List.append_assoc]
  rw [hassoc]
  have hpre : markerLit.isPrefixOf (markerLit ++ (u ++ (['"', ';'] ++ x))) = true :=
    isPrefixOf_append_self _ _
  have hdrop : (markerLit ++ (u ++ (['"', ';'] ++ x))).drop markerLit.length
      = u ++ (['"', ';'] ++ x) := List.drop_left _ _
  have htw : (u ++ (['"', ';'] ++ x)).takeWhile notQuote = u := by
    rw [List.takeWhile_append_of_pos hall]
    have : (['"', ';'] ++ x).takeWhile notQuote = [] := by
      simp [List.takeWhile_cons, notQuote]
    rw [this, List.append_nil]
  have hdw : (u ++ (['"', ';'] ++ x)).dropWhile notQuote = '"' :: ';' :: x := by
    rw [List.dropWhile_append_of_pos hall]
    simp [List.dropWhile_cons, notQuote]
  simp only [matchMarker, hpre, if_true, hdrop, htw, hdw, hu, if_false]
  simp [hu]

theorem subAll_gap (g r : List Char)
    (h : ∀ j, j < g.length → matchMarker (g.drop j ++ r) = none) :
    subAll (g ++ r) = (g ++ (subAll r).1, (subAll r).2) := by
  induction g with
  | nil => simp
  | cons c g ih =>
    have h0 : matchMarker (c :: (g ++ r)) = none := by
      have := h 0 (by simp)
      simpa using this
    rw [List.cons_append, subAll_cons_none h0]
    have ih2 := ih (fun j hj => by
      have := h (j + 1) (by simp only [List.length_cons]; omega)
      simpa using this)
    rw [ih2]
    simp

theorem countMarkers_gap (g r : List Char)
    (h : ∀ j, j < g.length → matchMarker (g.drop j ++ r) = none) :
    countMarkers (g ++ r) = countMarkers r := by
  induction g with
  | nil => simp
  | cons c g ih =>
    have h0 : matchMarker (c :: (g ++ r)) = none := by
      have := h 0 (by simp)
      simpa using this
    rw [List.cons_append, countMarkers_cons_none h0]
    exact ih (fun j hj => by
      have := h (j + 1) (by simp only [List.length_cons]; omega)
      simpa using this)

theorem isMarker_length {m : List Char} (hm : IsMarker m) :
    markerLit.length + 3 ≤ m.length := by
  obtain ⟨u, hu, _, rfl⟩ := hm
  have : 1 ≤ u.length := by
    cases u with
    | nil => simp at hu
    | cons a u => simp
  simp only [List.length_append]
  simp only [List.length_cons, List.length_nil]
  omega

theorem matchMarker_append_marker (w m x : List Char) (hm : IsMarker m) :
    matchMarker (w ++ m ++ x) = (matchMarker (w ++ m)).map (fun p => (p.1, p.2 ++ x)) := by
  have hml := isMarker_length hm
  obtain ⟨u, hu, hq, hmeq⟩ := hm
  apply matchMarker_append
  · simp only [List.length_append]
    omega
  · have hz : w ++ m = (w ++ markerLit ++ u) ++ ['"', ';'] := by
      rw [hmeq]
      simp [List.append_assoc]
    have hzlen : markerLit.length ≤ (w ++ markerLit ++ u).length := by
      simp only [List.length_append]
      omega
    rw [hz, drop_append_le _ _ _ hzlen]
    exact dropWhile_quote_tail _

theorem matchMarker_none_extend {w m : List Char} (hm : IsMarker m) (x : List Char)
    (h : matchMarker (w ++ m) = none) :
    matchMarker (w ++ m ++ x) = none := by
  rw [matchMarker_append_marker _ _ _ hm, h]
  rfl

theorem matchMarker_none_restrict {w m : List Char} (hm : IsMarker m) (x : List Char)
    (h : matchMarker (w ++ m ++ x) = none) :
    matchMarker (w ++ m) = none := by
  rw [matchMarker_append_marker _ _ _ hm] at h
  cases hmm : matchMarker (w ++ m) with
  | none => rfl
  | some p => rw [hmm] at h; simp at h

theorem subAll_marker (m x : List Char) (hm : IsMarker m) :
    subAll (m ++ x) = (m ++ ('\n' :: calendar_keys) ++ (subAll x).1, (subAll x).2 + 1) := by
  have hne : m ≠ [] := by
    intro hnil
    have := isMarker_length hm
    rw [hnil] at this
    simp [markerLit] at this
  cases m with
  | nil => exact absurd rfl hne
  | cons c m' =>
    have hmatch : matchMarker (c :: (m' ++ x)) = some (c :: m', x) := by
      simpa using matchMarker_of_isMarker hm x
    simpa using subAll_cons_some hmatch

theorem countMarkers_marker (m x : List Char) (hm : IsMarker m) :
    countMarkers (m ++ x) = countMarkers x + 1 := by
  have hne : m ≠ [] := by
    intro hnil
    have := isMarker_length hm
    rw [hnil] at this
    simp [markerLit] at this
  cases m with
  | nil => exact absurd rfl hne
  | cons c m' =>
    have hmatch : matchMarker (c :: (m' ++ x)) = some (c :: m', x) := by
      simpa using matchMarker_of_isMarker hm x
    simpa using countMarkers_cons_some hmatch

theorem noMarkerInside_sound {l : List Char} (hchk : noMarkerInside l = true) :
    ∀ j, j < l.length → ∀ r, matchMarker (l.drop j ++ r) = none := by
  intro j hj r
  have hall := List.all_eq_true.mp hchk
  have hx := hall j (List.mem_range.mpr hj)
  by_cases hcase : markerLit.length ≤ l.length - j
  · rw [if_pos hcase] at hx
    have hfalse : markerLit.isPrefixOf (l.drop j) = false := by
      simpa using hx
    have hdroplen : markerLit.length ≤ (l.drop j).length := by
      rw [List.length_drop]
      omega
    have hpf : markerLit.isPrefixOf (l.drop j ++ r) = false := by
      rw [isPrefixOf_append_le _ _ _ hdroplen]
      exact hfalse
    simp [matchMarker, hpf]
  · rw [if_neg hcase] at hx
    have hfalse : (l.drop j).isPrefixOf markerLit = false := by
      simpa using hx
    have hlen : (l.drop j).length ≤ markerLit.length := by
      rw [List.length_drop]
      omega
    cases hb : markerLit.isPrefixOf (l.drop j ++ r) with
    | false => simp [matchMarker, hb]
    | true =>
      have hcontra := isPrefixOf_of_isPrefixOf_append hb hlen
      rw [hcontra] at hfalse
      cases hfalse

theorem insertion_scan_check : noMarkerInside ('\n' :: calendar_keys) = true := by decide

theorem insertion_no_match :
    ∀ j, j < ('\n' :: calendar_keys).length →
      ∀ r, matchMarker (('\n' :: calendar_keys).drop j ++ r) = none :=
  noMarkerInside_sound insertion_scan_check

/-- Every input decomposes into alternating gaps and matched anchors: the scan
leaves every gap character in place and in order, reproduces every anchor
verbatim, inserts the block after each anchor, and counts the anchors. -/
theorem subAll_decomp : ∀ n s, s.length ≤ n →
    ∃ ps gN,
      s = assemble ps gN ∧
      subAll s = (assemblePatched ps gN, ps.length) ∧
      countMarkers s = ps.length ∧
      (∀ p ∈ ps, IsMarker p.2) ∧
      (∀ p ∈ ps, ∀ j, j < p.1.length → matchMarker (p.1.drop j ++ p.2) = none) ∧
      (∀ j, j < gN.length → matchMarker (gN.drop j) = none) := by
  intro n
  induction n with
  | zero =>
    intro s hs
    have hnil : s = [] := List.eq_nil_of_length_eq_zero (Nat.le_zero.mp hs)
    subst hnil
    exact ⟨[], [], by simp [assemble], by simp [assemblePatched, subAll_nil],
      by simp [countMarkers_nil], by simp, by simp, by simp⟩
  | succ n ih =>
    intro s hs
    cases s with
    | nil =>
      exact ⟨[], [], by simp [assemble], by simp [assemblePatched, subAll_nil],
        by simp [countMarkers_nil], by simp, by simp, by simp⟩
    | cons c cs =>
      cases hmm : matchMarker (c :: cs) with
      | some p =>
        obtain ⟨m, r⟩ := p
        obtain ⟨hlt, hseq, hmark⟩ := matchMarker_rest_lt hmm
        simp only [List.length_cons] at hs hlt
        obtain ⟨ps', gN', hasm, hsub, hcnt, hmk, hgap, hgN⟩ := ih r (by omega)
        refine ⟨([], m) :: ps', gN', ?_, ?_, ?_, ?_, ?_, hgN⟩
        · rw [hseq, hasm]
          simp [assemble]
        · rw [hseq] at hmm ⊢
          rw [subAll_marker m r hmark, hsub]
          simp [assemblePatched]
        · rw [hseq]
          rw [countMarkers_marker m r hmark, hcnt]
          simp
        · intro p hp
          rcases List.mem_cons.mp hp with hph | hpt
          · rw [hph]
            exact hmark
          · exact hmk p hpt
        · intro p hp
          rcases List.mem_cons.mp hp with hph | hpt
          · rw [hph]
            intro j hj
            simp at hj
          · exact hgap p hpt
      | none =>
        simp only [List.length_cons] at hs
        obtain ⟨ps', gN', hasm, hsub, hcnt, hmk, hgap, hgN⟩ := ih cs (by omega)
        cases ps' with
        | nil =>
          have hcs : cs = gN' := by simpa [assemble] using hasm
          refine ⟨[], c :: gN', by simp [assemble, hcs], ?_, ?_, by simp, by simp, ?_⟩
          · rw [subAll_cons_none hmm]
            simp only [assemble] at hasm
            simp only [assemblePatched] at hsub ⊢
            rw [hsub]
            simp
          · rw [countMarkers_cons_none hmm, hcnt]
          · intro j hj
            cases j with
            | zero =>
              simpa [hcs] using hmm
            | succ j =>
              simp only [List.length_cons] at hj
              simpa using hgN j (by omega)
        | cons hd ps'' =>
          obtain ⟨g, m⟩ := hd
          have hmhd : IsMarker m := hmk (g, m) (by simp)
          have hasm' : cs = g ++ (m ++ assemble ps'' gN') := by
            simpa [assemble, List.append_assoc] using hasm
          refine ⟨(c :: g, m) :: ps'', gN', ?_, ?_, ?_, ?_, ?_, hgN⟩
          · simp only [assemble, List.foldr_cons] at hasm' ⊢
            rw [List.cons_append, hasm']
          · rw [subAll_cons_none hmm, hsub]
            simp [assemblePatched]
          · rw [countMarkers_cons_none hmm, hcnt]
            simp
          · intro p hp
            rcases List.mem_cons.mp hp with hph | hpt
            · rw [hph]
              exact hmhd
            · exact hmk p (List.mem_cons_of_mem _ hpt)
          · intro p hp
            rcases List.mem_cons.mp hp with hph | hpt
            · subst hph
              intro j hj
              have hj' : j < g.length + 1 := by simpa using hj
              cases j with
              | zero =>
                simp only [List.drop_zero]
                have hX : matchMarker (((c :: g) ++ m) ++ assemble ps'' gN') = none := by
                  have hcs2 : c :: cs = ((c :: g) ++ m) ++ assemble ps'' gN' := by
                    rw [List.cons_append, hasm']
                    simp [List.append_assoc]
                  rw [← hcs2]
                  exact hmm
                exact matchMarker_none_restrict hmhd _ hX
              | succ j =>
                have hjg : j < g.length := by
                  have : j + 1 < g.length + 1 := by simpa using hj'
                  omega
                have := hgap (g, m) (by simp) j (by show j < g.length; exact hjg)
                simpa using this
            · exact hgap p (List.mem_cons_of_mem _ hpt)

/-- Second application of the scan to an already-patched text: every anchor
matches again and receives a second copy of the inserted block; all gaps and
the inserted blocks themselves stay inert. -/
theorem subAll_twice : ∀ (ps : List (List Char × List Char)) (gN : List Char),
    (∀ p ∈ ps, IsMarker p.2) →
    (∀ p ∈ ps, ∀ j, j < p.1.length → matchMarker (p.1.drop j ++ p.2) = none) →
    (∀ j, j < gN.length → matchMarker (gN.drop j) = none) →
    subAll (assemblePatched ps gN) = (assembleTwice ps gN, ps.length) := by
  intro ps
  induction ps with
  | nil =>
    intro gN _ _ hgN
    have hgap := subAll_gap gN [] (fun j hj => by simpa using hgN j hj)
    simp only [List.append_nil, subAll_nil] at hgap
    simpa [assemblePatched, assembleTwice] using hgap
  | cons hd ps ih =>
    obtain ⟨g, m⟩ := hd
    intro gN hm hg hgN
    have hmhd : IsMarker m := hm (g, m) (by simp)
    have ihT := ih gN (fun p hp => hm p (List.mem_cons_of_mem _ hp))
      (fun p hp => hg p (List.mem_cons_of_mem _ hp)) hgN
    have hstepC : subAll (('\n' :: calendar_keys) ++ assemblePatched ps gN)
        = (('\n' :: calendar_keys) ++ (subAll (assemblePatched ps gN)).1,
           (subAll (assemblePatched ps gN)).2) :=
      subAll_gap _ _ (fun j hj => insertion_no_match j hj _)
    have hstepB : subAll (m ++ (('\n' :: calendar_keys) ++ assemblePatched ps gN))
        = (m ++ ('\n' :: calendar_keys) ++
            (subAll (('\n' :: calendar_keys) ++ assemblePatched ps gN)).1,
           (subAll (('\n' :: calendar_keys) ++ assemblePatched ps gN)).2 + 1) :=
      subAll_marker _ _ hmhd
    have hgapg : ∀ j, j < g.length →
        matchMarker (g.drop j ++ (m ++ (('\n' :: calendar_keys) ++ assemblePatched ps gN)))
          = none := by
      intro j hj
      have h0 : matchMarker (g.drop j ++ m) = none := hg (g, m) (by simp) j hj
      have := matchMarker_none_extend hmhd (('\n' :: calendar_keys) ++ assemblePatched ps gN) h0
      simpa [List.append_assoc] using this
    have hstepA : subAll (g ++ (m ++ (('\n' :: calendar_keys) ++ assemblePatched ps gN)))
        = (g ++ (subAll (m ++ (('\n' :: calendar_keys) ++ assemblePatched ps gN))).1,
           (subAll (m ++ (('\n' :: calendar_keys) ++ assemblePatched ps gN))).2) :=
      subAll_gap _ _ hgapg
    have hABC : assemblePatched ((g, m) :: ps) gN
        = g ++ (m ++ (('\n' :: calendar_keys) ++ assemblePatched ps gN)) := by
      simp [assemblePatched]
    rw [hABC, hstepA, hstepB, hstepC, ihT]
    simp [assembleTwice, List.append_assoc]

/- ### Claim theorems -/

/-- C1: for every input text containing exactly N non-overlapping occurrences
(N at least 1) of the marker pattern, the patched output consists of the
original gaps and anchors in order with each matched anchor immediately
followed by a line break and the insertion block, and the reported insertion
count equals N. -/
theorem claim1_patches_every_occurrence (s : List Char)
    (hN : 1 ≤ countMarkers s) :
    (subAll s).2 = countMarkers s ∧
    ∃ ps gN, s = assemble ps gN ∧
      (subAll s).1 = assemblePatched ps gN ∧
      ps.length = countMarkers s ∧
      ∀ p ∈ ps, IsMarker p.2 := by
  obtain ⟨ps, gN, h1, h2, h3, h4, _, _⟩ := subAll_decomp s.length s le_rfl
  exact ⟨subAll_snd_eq_countMarkers s, ps, gN, h1, by rw [h2], h3.symm, h4⟩

/-- C1 witness: the single-anchor input `exC8` satisfies the hypothesis and
the conclusion of C1. -/
theorem claim1_witness :
    1 ≤ countMarkers exC8 ∧
    ((subAll exC8).2 = countMarkers exC8 ∧
     ∃ ps gN, exC8 = assemble ps gN ∧
       (subAll exC8).1 = assemblePatched ps gN ∧
       ps.length = countMarkers exC8 ∧
       ∀ p ∈ ps, IsMarker p.2) :=
  ⟨by decide, claim1_patches_every_occurrence exC8 (by decide)⟩

/-- C2: when the file is read successfully but contains zero occurrences of
the pattern, `add_calendar_permissions` returns `false`, performs exactly one
write (the backup), leaves the target entry unchanged, and the backup holds
the pre-call content. -/
theorem claim2_zero_matches_failure (fs : FS) (path : String) (content : List Char)
    (hread : fs path = some content) (hzero : countMarkers content = 0) :
    add_calendar_permissions path fs =
      some (FS.set fs (path ++ ".backup") content, false,
        [(path ++ ".backup", content)]) ∧
    FS.set fs (path ++ ".backup") content path = fs path ∧
    FS.set fs (path ++ ".backup") content (path ++ ".backup") = some content := by
  have hcnt : (subAll content).2 = 0 := by
    rw [subAll_snd_eq_countMarkers]
    exact hzero
  refine ⟨?_, ?_, ?_⟩
  · simp [add_calendar_permissions, hread, hcnt, applyWrites]
  · simp only [FS.set]
    split
    · exact hread.symm
    · rfl
  · simp [FS.set]

/-- C2 witness: a concrete filesystem whose project file has no occurrence. -/
theorem claim2_witness :
    (fsC2 projectPath = some noMarkerText ∧ countMarkers noMarkerText = 0) ∧
    (add_calendar_permissions projectPath fsC2 =
       some (FS.set fsC2 (projectPath ++ ".backup") noMarkerText, false,
         [(projectPath ++ ".backup", noMarkerText)]) ∧
     FS.set fsC2 (projectPath ++ ".backup") noMarkerText projectPath = fsC2 projectPath ∧
     FS.set fsC2 (projectPath ++ ".backup") noMarkerText (projectPath ++ ".backup")
       = some noMarkerText) :=
  ⟨⟨by decide, by decide⟩,
   claim2_zero_matches_failure fsC2 projectPath noMarkerText (by decide) (by decide)⟩

/-- C3: whenever the target exists and is readable, the backup write is the
first write performed (before any mutation of the target), and afterwards the
backup holds exactly the pre-call content of the target, whatever was at the
backup path before. -/
theorem claim3_backup_first (fs : FS) (path : String) (content : List Char)
    (hread : fs path = some content) :
    ∃ fs2 ok ws, add_calendar_permissions path fs = some (fs2, ok, ws) ∧
      ws.head? = some (path ++ ".backup", content) ∧
      (ws = [(path ++ ".backup", content)] ∨
        ws = [(path ++ ".backup", content), (path, (subAll content).1)]) ∧
      fs2 (path ++ ".backup") = some content := by
  have hne : path ++ ".backup" ≠ path := by
    intro he
    have hlen := congrArg String.length he
    have h7 : (".backup" : String).length = 7 := by decide
    rw [String.length_append, h7] at hlen
    omega
  by_cases hz : (subAll content).2 = 0
  · refine ⟨applyWrites fs [(path ++ ".backup", content)], false,
      [(path ++ ".backup", content)], ?_, rfl, Or.inl rfl, ?_⟩
    · simp [add_calendar_permissions, hread, hz]
    · simp [applyWrites, FS.set]
  · refine ⟨applyWrites fs [(path ++ ".backup", content), (path, (subAll content).1)], true,
      [(path ++ ".backup", content), (path, (subAll content).1)], ?_, rfl, Or.inr rfl, ?_⟩
    · simp [add_calendar_permissions, hread, hz]
    · simp [applyWrites, FS.set, hne]

/-- C3 witness: concrete run on a filesystem holding the one-anchor input. -/
theorem claim3_witness :
    fsC8 projectPath = some exC8 ∧
    (∃ fs2 ok ws, add_calendar_permissions projectPath fsC8 = some (fs2, ok, ws) ∧
      ws.head? = some (projectPath ++ ".backup", exC8) ∧
      (ws = [(projectPath ++ ".backup", exC8)] ∨
        ws = [(projectPath ++ ".backup", exC8), (projectPath, (subAll exC8).1)]) ∧
      fs2 (projectPath ++ ".backup") = some exC8) :=
  ⟨by decide, claim3_backup_first fsC8 projectPath exC8 (by decide)⟩

/-- C4: every character of the input outside the matched anchors is preserved
verbatim and in order in the output, and every matched anchor text is
reproduced unchanged: the output is exactly the original gaps and anchors in
order, with the insertion spliced in after each anchor. -/
theorem claim4_frame_preservation (s : List Char) :
    ∃ ps gN, s = assemble ps gN ∧
      (subAll s).1 = assemblePatched ps gN ∧
      ∀ p ∈ ps, IsMarker p.2 := by
  obtain ⟨ps, gN, h1, h2, _, h4, _, _⟩ := subAll_decomp s.length s le_rfl
  exact ⟨ps, gN, h1, by rw [h2], h4⟩

/-- C5: the transformation is not idempotent: on any input with at least one
occurrence, the anchors still match after the first application, and a second
application stacks a second copy of the insertion block after each anchor. -/
theorem claim5_not_idempotent (s : List Char) (hN : 1 ≤ countMarkers s) :
    ∃ ps gN, s = assemble ps gN ∧ 1 ≤ ps.length ∧
      (∀ p ∈ ps, IsMarker p.2) ∧
      (subAll s).1 = assemblePatched ps gN ∧
      subAll ((subAll s).1) = (assembleTwice ps gN, ps.length) := by
  obtain ⟨ps, gN, h1, h2, h3, h4, h5, h6⟩ := subAll_decomp s.length s le_rfl
  refine ⟨ps, gN, h1, by omega, h4, by rw [h2], ?_⟩
  rw [h2]
  exact subAll_twice ps gN h4 h5 h6

/-- C5 witness: the single-anchor input `exC8` satisfies the hypothesis and
the conclusion of C5. -/
theorem claim5_witness :
    1 ≤ countMarkers exC8 ∧
    (∃ ps gN, exC8 = assemble ps gN ∧ 1 ≤ ps.length ∧
      (∀ p ∈ ps, IsMarker p.2) ∧
      (subAll exC8).1 = assemblePatched ps gN ∧
      subAll ((subAll exC8).1) = (assembleTwice ps gN, ps.length)) :=
  ⟨by decide, claim5_not_idempotent exC8 (by decide)⟩

/-- C6: the exit code is 0 exactly when the project file exists and its
content has at least one occurrence of the pattern; in every other case
(file missing, or zero occurrences) the exit code is 1, and no other exit
code occurs. -/
theorem claim6_exit_codes (fs : FS) :
    ((mainRun fs).exitCode = 0 ↔
      ∃ c, fs projectPath = some c ∧ 1 ≤ countMarkers c) ∧
    ((mainRun fs).exitCode = 0 ∨ (mainRun fs).exitCode = 1) := by
  cases hfp : fs projectPath with
  | none =>
    have hmain : mainRun fs = ⟨fs, 1, []⟩ := by
      unfold mainRun
      rw [hfp]
      simp
    rw [hmain]
    refine ⟨⟨fun h => absurd h one_ne_zero, ?_⟩, Or.inr rfl⟩
    rintro ⟨c, hc, _⟩
    cases hc
  | some c =>
    have hcnt := subAll_snd_eq_countMarkers c
    by_cases hz : (subAll c).2 = 0
    · have hmain : (mainRun fs).exitCode = 1 := by
        unfold mainRun add_calendar_permissions
        rw [hfp]
        simp [hz]
      rw [hmain]
      refine ⟨⟨fun h => absurd h one_ne_zero, ?_⟩, Or.inr rfl⟩
      rintro ⟨c', hc', hge⟩
      injection hc' with hcc
      subst hcc
      omega
    · have hmain : (mainRun fs).exitCode = 0 := by
        unfold mainRun add_calendar_permissions
        rw [hfp]
        simp [hz]
      rw [hmain]
      exact ⟨⟨fun _ => ⟨c, rfl, by omega⟩, fun _ => rfl⟩, Or.inl rfl⟩

/-- C6 witness: the exit-code characterisation instantiated at a concrete
filesystem holding a one-anchor project file. -/
theorem claim6_witness :
    ((mainRun fsC8).exitCode = 0 ↔
      ∃ c, fsC8 projectPath = some c ∧ 1 ≤ countMarkers c) ∧
    ((mainRun fsC8).exitCode = 0 ∨ (mainRun fsC8).exitCode = 1) :=
  claim6_exit_codes fsC8

/-- C7: when the project path does not exist, the program performs no write at
all, leaves the filesystem unchanged, and exits with code 1. -/
theorem claim7_not_found (fs : FS) (h : fs projectPath = none) :
    mainRun fs = ⟨fs, 1, []⟩ := by
  unfold mainRun
  rw [h]
  simp

/-- C7 witness: the empty filesystem has no project file. -/
theorem claim7_witness :
    emptyFS projectPath = none ∧ mainRun emptyFS = ⟨emptyFS, 1, []⟩ :=
  ⟨rfl, claim7_not_found emptyFS rfl⟩

/-- C8: on the concrete one-block input containing the portrait-orientation
anchor statement, the output is that statement followed by a line break and
the two fixed assignment lines with the documented description strings, the
reported count is 1, and the exit code is 0. -/
theorem claim8_concrete_scenario :
    subAll exC8 = (exC8anchor ++ '\n' :: calendar_keys ++ ['\n'], 1) ∧
    calendar_keys = tab4 ++ usageLine ++ '\n' :: (tab4 ++ fullAccessLine) ∧
    (mainRun fsC8).exitCode = 0 := by
  refine ⟨by decide, by decide, by decide⟩

/-- C9 counterexample: on the input `exC8`, whose anchor line carries no
indentation, both inserted lines carry four-tab indentation, so the inserted
lines do not match the indentation of the anchor line they follow. -/
theorem claim9_counterexample :
    subAll exC8 = (exC8anchor ++ '\n' :: calendar_keys ++ ['\n'], 1) ∧
    indentOf exC8anchor = [] ∧
    indentOf calendar_keys = tab4 ∧
    indentOf secondKeyLine = tab4 ∧
    indentOf calendar_keys ≠ indentOf exC8anchor :=
  ⟨by decide, by decide, by decide, by decide, by decide⟩

/-- C9 amended: the insertion block is a constant whose two lines always carry
a fixed indentation of four tabs (the conventional indentation of the build
settings block), independent of the indentation of the anchor occurrence it
follows. -/
theorem claim9_fixed_indentation (s : List Char) :
    ∃ ps gN, s = assemble ps gN ∧
      (subAll s).1 = assemblePatched ps gN ∧
      (∀ p ∈ ps, IsMarker p.2) ∧
      indentOf calendar_keys = tab4 ∧
      indentOf secondKeyLine = tab4 := by
  obtain ⟨ps, gN, h1, h2, _, h4, _, _⟩ := subAll_decomp s.length s le_rfl
  exact ⟨ps, gN, h1, by rw [h2], h4, by decide, by decide⟩

/-- C10: an anchor statement with an empty quoted value is not matched by the
pattern (which requires at least one non-quote character between the quotes):
the matcher rejects it whatever follows, no insertion is made, and it does not
contribute to the reported count. -/
theorem claim10_empty_value_unmatched (rest : List Char) :
    matchMarker (markerLit ++ ('"' :: ';' :: rest)) = none ∧
    subAll exC10 = (exC10, 0) ∧
    countMarkers exC10 = 0 := by
  refine ⟨?_, by decide, by decide⟩
  have hdrop : (markerLit ++ ('"' :: ';' :: rest)).drop markerLit.length
      = '"' :: ';' :: rest := List.drop_left _ _
  simp [matchMarker, isPrefixOf_append_self, hdrop, List.takeWhile_cons, notQuote]
